import Mathlib

/-!
Verification of the trie-search engine (`src/trie/TrieSearch.ts`), its multi-key indexed
collection (`HashArray`, current generation: Map-based, `CloneOps`, options-with-list
constructor — the version the TrieSearch class actually calls) and the `UnionReducer`.

Embedding conventions:
* JS object reference identity is modelled by decidable equality of the Lean values; the
  `Item` type carries an `id : Nat` so that two distinct references with equal fields are
  distinguishable.
* A JS key value that is falsy for indexing purposes (`undefined`, `null`, the empty
  string) is modelled as `none`; key extraction (`HashArray.objectAt` resolving a string
  field or an array path) is embedded as a function `α → Option String`.
* JS `Map` is modelled as an insertion-ordered association list with unique keys
  maintained by the operations themselves (set updates in place, delete filters).
* The external `QuickLRU` dependency (from the runtime package, not part of this
  repository) is modelled from the spec, section 4.5: a bounded insertion-ordered map
  that evicts the oldest entry after an insertion exceeds the bound.  No trace appearing
  in the claims ever reaches the bound, so the generational details of the external
  implementation are irrelevant.
* JS strings are Lean `String`s; `length`, `substring`, `toLowerCase` act on the
  character sequence (all strings in the claims are within the Basic Multilingual Plane
  and use only ASCII upper-case letters, where the semantics agree).
-/

namespace TrieSpec

/-- An indexed item: `id` models JS reference identity, `key` models the string field
named by the key-field descriptor used throughout the claims. -/
structure Item where
  id : Nat
  key : String
deriving DecidableEq, Repr

/-- JS whitespace test for a character, restricted to the ASCII whitespace actually used
by the claims (the source uses the regex class of whitespace characters). -/
def isWs (c : Char) : Bool := c = ' ' || c = '\t' || c = '\n' || c = '\r'

/-- JS `String.prototype.split` on a single-character separator class: every separator
character ends the current segment, empty segments are kept (so a leading, trailing or
doubled separator yields empty strings), and splitting the empty string yields one empty
segment. -/
def splitList (p : Char → Bool) (l : List Char) : List (List Char) :=
  l.foldr
    (fun c acc =>
      if p c then [] :: acc
      else
        match acc with
        | h :: t => (c :: h) :: t
        | [] => [[c]])
    [[]]

/-- Split a string at whitespace, JS `split(/\s/g)` semantics. -/
def splitWs (s : String) : List String := (splitList isWs s.data).map String.mk

/-- JS `String.prototype.toLowerCase`, on the ASCII range exercised by the claims. -/
def lowerStr (s : String) : String := String.mk (s.data.map Char.toLower)

/-- JS string length (character count; identical to UTF-16 length for BMP strings). -/
def strLen (s : String) : Nat := s.data.length

/-- JS `String.prototype.substring(0, n)`. -/
def strTake (s : String) (n : Nat) : String := String.mk (s.data.take n)

/-- JS `String.prototype.substring(n)`. -/
def strDrop (s : String) (n : Nat) : String := String.mk (s.data.drop n)

/-- Whether a string consists only of whitespace; the source constant
`REGEX_IS_WHITESPACE = /^\s*$/` (matches the empty string as well). -/
def allWs (s : String) : Bool := s.data.all isWs

section LRU

variable {κ ν : Type}

/-- Bounded cache used for both the phrase cache and the word-node cache.  Modelled from
the spec (section 4.5) because the implementation is the external `QuickLRU` package: a
bounded insertion-ordered map; an insertion that exceeds the bound evicts the oldest
entries down to the bound. -/
structure LRU (κ ν : Type) where
  maxSize : Nat
  entries : List (κ × ν)

/-- Whether the cache has an entry for the key. -/
def LRU.has [BEq κ] (c : LRU κ ν) (k : κ) : Bool := (c.entries.lookup k).isSome

/-- Cached value for the key, if any. -/
def LRU.get [BEq κ] (c : LRU κ ν) (k : κ) : Option ν := c.entries.lookup k

/-- Insert or refresh an entry, then evict oldest entries beyond the bound. -/
def LRU.set [BEq κ] (c : LRU κ ν) (k : κ) (v : ν) : LRU κ ν :=
  let es := (c.entries.filter (fun p => !(p.1 == k))) ++ [(k, v)]
  { c with entries := if es.length > c.maxSize then es.drop (es.length - c.maxSize) else es }

/-- Remove every entry. -/
def LRU.clear (c : LRU κ ν) : LRU κ ν := { c with entries := [] }

/-- Number of entries. -/
def LRU.size (c : LRU κ ν) : Nat := c.entries.length

end LRU

section HashArrayDef

variable {α : Type}

/-- The current-generation `HashArray` (`src/hash/HashArray.ts`): an insertion-ordered
item list plus a `Map` from key string to the bucket of items sharing that key.  Key
extraction (`objectAt` over the stored `keyFields`) is embedded as functions
`α → Option String` (`none` = JS-falsy key value). -/
structure HashArray (α : Type) where
  keyFields : List (α → Option String)
  list : List α
  map : List (String × List α)
  ignoreDuplicates : Bool

/-- A fresh empty `HashArray` with the given key fields
(`new HashArray(keyFields, { list: [] })`). -/
def HashArray.mk0 (kf : List (α → Option String)) : HashArray α :=
  { keyFields := kf, list := [], map := [], ignoreDuplicates := false }

/-- JS `Map.prototype.get` for the association-list embedding. -/
def mapGet (m : List (String × List α)) (k : String) : Option (List α) := m.lookup k

/-- JS `Map.prototype.set` on a key already present: update in place, preserving
insertion order. -/
def mapSet (m : List (String × List α)) (k : String) (v : List α) : List (String × List α) :=
  m.map (fun p => if p.1 = k then (k, v) else p)

/-- JS `Map.prototype.delete`: remove the entry for the key, preserving the others. -/
def mapDel (m : List (String × List α)) (k : String) : List (String × List α) :=
  m.filter (fun p => !(p.1 = k))

/-- `HashArray.has`. -/
def HashArray.has (ha : HashArray α) (k : String) : Bool := (mapGet ha.map k).isSome

/-- `HashArray.collides`: some configured key field of the item resolves to a key present
in the map.  (`has(undefined)` is `false` in JS since falsy keys are never stored.) -/
def HashArray.collides (ha : HashArray α) (item : α) : Bool :=
  ha.keyFields.any (fun kf =>
    match kf item with
    | none => false
    | some k => ha.has k)

/-- Per-key-field body of `HashArray.#addOne`; returns the updated map, the `added` flag
and whether the item was dropped by the `ignoreDuplicates` early return (which keeps the
map insertions already performed for earlier key fields). -/
def addOneGo [DecidableEq α] (ign : Bool) (item : α) :
    List (α → Option String) → List (String × List α) → Bool →
    List (String × List α) × Bool × Bool
  | [], m, added => (m, added, false)
  | kf :: rest, m, added =>
    match kf item with
    | none => addOneGo ign item rest m added
    | some k =>
      match mapGet m k with
      | some items =>
        if ign then (m, added, true)
        else if item ∈ items then addOneGo ign item rest m false
        else addOneGo ign item rest (mapSet m k (items ++ [item])) added
      | none => addOneGo ign item rest (m ++ [(k, [item])]) added

/-- `HashArray.#addOne`: index the item under each truthy key value, then push it onto
the ordered list when it is newly added or not yet present (the `ignoreDuplicates` early
return skips the list push). -/
def HashArray.addOne [DecidableEq α] (ha : HashArray α) (item : α) : HashArray α :=
  match addOneGo ha.ignoreDuplicates item ha.keyFields ha.map true with
  | (m, added, aborted) =>
    if aborted then { ha with map := m }
    else
      { ha with
        map := m
        list := if added || !(item ∈ ha.list) then ha.list ++ [item] else ha.list }

/-- `HashArray.add` over a list of items. -/
def HashArray.add [DecidableEq α] (ha : HashArray α) (items : List α) : HashArray α :=
  items.foldl HashArray.addOne ha

/-- `HashArray.sizeFlat`: number of items in the ordered list. -/
def HashArray.sizeFlat (ha : HashArray α) : Nat := ha.list.length

/-- One key field of `HashArray.#removeItemFromMap`: remove the first occurrence of the
item from that key's bucket and delete the bucket if it ends up empty. -/
def removeKeyStep [DecidableEq α] (item : α) (m : List (String × List α))
    (kf : α → Option String) : List (String × List α) :=
  match kf item with
  | none => m
  | some k =>
    match mapGet m k with
    | none => m
    | some items =>
      let items2 := items.eraseP (fun x => x = item)
      if items2.isEmpty then mapDel m k else mapSet m k items2

/-- `HashArray.#removeItemFromMap`: apply `removeKeyStep` for each key field. -/
def HashArray.removeItemFromMap [DecidableEq α] (ha : HashArray α) (item : α) : HashArray α :=
  { ha with map := ha.keyFields.foldl (removeKeyStep item) ha.map }

/-- `HashArray.remove`: remove each given item from the map and from the ordered list;
an item absent from the ordered list is silently skipped (`indexOf` guard). -/
def HashArray.remove [DecidableEq α] (ha : HashArray α) (items : List α) : HashArray α :=
  items.foldl
    (fun h item =>
      let h1 := h.removeItemFromMap item
      { h1 with list := h1.list.eraseP (fun x => x = item) })
    ha

/-- JS `list.splice(list.indexOf(item), 1)` without an `indexOf` guard: removes the first
occurrence when present, otherwise `splice(-1, 1)` removes the last element. -/
def spliceOut [DecidableEq α] (l : List α) (item : α) : List α :=
  if l.any (fun x => x = item) then l.eraseP (fun x => x = item) else l.dropLast

/-- `HashArray.removeByKey`: for each key, take a snapshot of that key's bucket, remove
each snapshotted item from the map and the ordered list, then delete the key. -/
def HashArray.removeByKey [DecidableEq α] (ha : HashArray α) (keys : List String) : HashArray α :=
  keys.foldl
    (fun h key =>
      let h2 :=
        match mapGet h.map key with
        | none => h
        | some items =>
          items.foldl
            (fun hh item =>
              let hh1 := hh.removeItemFromMap item
              { hh1 with list := spliceOut hh1.list item })
            h
      { h2 with map := mapDel h2.map key })
    ha

/-- `HashArray.clone` with the default `CloneOps.NONE`: a fresh empty collection sharing
the key fields and options. -/
def HashArray.clone (ha : HashArray α) : HashArray α :=
  { keyFields := ha.keyFields, list := [], map := [], ignoreDuplicates := ha.ignoreDuplicates }

/-- `HashArray.intersection(target, output)`: for each item of this collection, if some
of this collection's key fields yields a key under which the item itself is stored both
here and in the target, add the item to the output (the source breaks after the first
matching key field, adding the item once). -/
def HashArray.intersection [DecidableEq α] (ha target output : HashArray α) : HashArray α :=
  ha.list.foldl
    (fun o item =>
      if ha.keyFields.any (fun kf =>
          match kf item with
          | none => false
          | some k =>
            (match mapGet ha.map k with
             | some items => decide (item ∈ items)
             | none => false)
            &&
            (match mapGet target.map k with
             | some items => decide (item ∈ items)
             | none => false))
      then o.addOne item
      else o)
    output

end HashArrayDef

section TrieDef

/-- A trie node (`TrieNode<T>`): a JS object whose properties are the child edges keyed
by token plus the special `value` property holding the items terminating there.  The
children are kept in insertion order (property order; no token in the claims is a
numeric-like key, which JS would reorder). -/
inductive TrieNode where
  | node (value : List Item) (children : List (String × TrieNode))

/-- The terminal item list of a node. -/
def TrieNode.value : TrieNode → List Item
  | .node v _ => v

/-- The child edges of a node. -/
def TrieNode.children : TrieNode → List (String × TrieNode)
  | .node _ c => c

/-- The empty root node `{}`. -/
def TrieNode.empty : TrieNode := .node [] []

/-- Child lookup `node[token]`. -/
def lookupChild (t : String) : List (String × TrieNode) → Option TrieNode
  | [] => none
  | (t2, c) :: rest => if t2 = t then some c else lookupChild t rest

/-- Replace the child stored under an existing token, preserving property order. -/
def replaceChild (t : String) (c : TrieNode) : List (String × TrieNode) → List (String × TrieNode)
  | [] => []
  | (t2, c2) :: rest => if t2 = t then (t, c) :: rest else (t2, c2) :: replaceChild t c rest

/-- The node-walking loop of `TrieSearch.map`: walk/create the child chain for the token
sequence and push the value onto the terminal node's `value` list.  The caller
guarantees the token list is non-empty (otherwise the value is discarded, since the
terminal node would be the root). -/
def insertTokens (v : Item) : List String → TrieNode → TrieNode
  | [], n => .node (n.value ++ [v]) n.children
  | t :: ts, n =>
    match lookupChild t n.children with
    | some c => .node n.value (replaceChild t (insertTokens v ts c) n.children)
    | none => .node n.value (n.children ++ [(t, insertTokens v ts TrieNode.empty)])

/-- The walking loop of `TrieSearch.#findNode`.  The loop checks `if (!node) return`
before each token and assigns `node = node[token]` after, so it early-returns — without
reaching the cache write after the loop — exactly when a node went missing before the
final token.  Result: `none` for that uncached early return, `some r` when the loop ran
to completion with final node `r` (`r = none`, a not-found at the last token, does get
cached). -/
def findNodeWalk : Option TrieNode → List String → Option (Option TrieNode)
  | n, [] => some n
  | none, _ :: _ => none
  | some n, t :: ts => findNodeWalk (lookupChild t n.children) ts

/-- The `TrieSearch` options after constructor defaulting.  `expandRegexes` entries are
single-character classes with their substitute string, matching the default
internationalization table (the claims exercise only the default and the empty table;
the `i` regex flag only adds upper-case variants, which no claim input contains).  The
split rules are the default whitespace rule `/\s/g` or disabled (`false`); no claim
supplies a custom split regex. -/
structure TSOptions where
  cache : Bool
  expandRegexes : List (List Char × String)
  ignoreCase : Bool
  insertFullUnsplitKey : Bool
  maxCacheSize : Nat
  minLen : Nat
  splitOnWs : Bool
  splitOnGetWs : Bool

/-- The default internationalization table `#DEFAULT_INTERNATIONALIZE_EXPAND_REGEXES`. -/
def defaultExpand : List (List Char × String) :=
  [ (['å', 'ä', 'à', 'á', 'â', 'ã', 'æ'], "a"),
    (['è', 'é', 'ê', 'ë'], "e"),
    (['ì', 'í', 'î', 'ï'], "i"),
    (['ò', 'ó', 'ô', 'õ', 'ö'], "o"),
    (['ù', 'ú', 'û', 'ü'], "u"),
    (['æ'], "ae") ]

/-- The constructor defaults of `TrieSearch` (`min` is the field `minLen` here). -/
def defaultOptions : TSOptions :=
  { cache := true
    expandRegexes := defaultExpand
    ignoreCase := true
    insertFullUnsplitKey := false
    maxCacheSize := 64
    minLen := 1
    splitOnWs := true
    splitOnGetWs := true }

/-- Actions delivered to subscribers. -/
inductive TSAction where
  | add
  | clear
  | destroy
  | subscribe
deriving DecidableEq, Repr

/-- A notification delivered to one subscriber: the action together with whether the
`trieSearch` argument is the instance itself (`true`) or the `undefined` sentinel
(`false`). -/
structure TSEvent where
  action : TSAction
  hasInstance : Bool
deriving DecidableEq, Repr

/-- The `TrieSearch` instance state.  The two caches exist only when `options.cache` is
set; here they are always carried and every cache access is guarded by the flag, as in
the source (`this.#cachePhrase?.`).  `subs` counts the registered subscriber handlers
(their identity never matters, only how many notifications are delivered). -/
structure TS where
  opts : TSOptions
  keyFields : List (Item → Option String)
  root : TrieNode
  cachePhrase : LRU String (List Item × List String)
  cacheWord : LRU String (Option TrieNode)
  isDestroyed : Bool
  subs : Nat

/-- The destroyed-instance error message. -/
def destroyedMsg : String := "TrieSearch error: This instance has been destroyed."

/-- `new TrieSearch(keyFields, options)`. -/
def TS.mk0 (kf : List (Item → Option String)) (opts : TSOptions) : TS :=
  { opts := opts
    keyFields := kf
    root := TrieNode.empty
    cachePhrase := { maxSize := opts.maxCacheSize, entries := [] }
    cacheWord := { maxSize := opts.maxCacheSize, entries := [] }
    isDestroyed := false
    subs := 0 }

/-- The key-field extractor for the single string key field named `key` (as used by
every claim): the field value when truthy, `none` for the empty string. -/
def itemKeyField : Item → Option String :=
  fun it => if it.key = "" then none else some it.key

/-- `TrieSearch.#keyTokenizer` with the internal tokenizer: single characters, or — when
`min > 1` — a first token of length `min` followed by single characters; a key shorter
than `min` yields no tokens. -/
def keyTokenizer (opts : TSOptions) (key : String) : List String :=
  if opts.minLen > 1 then
    if strLen key < opts.minLen then []
    else strTake key opts.minLen :: (key.data.drop opts.minLen).map (fun c => String.mk [c])
  else key.data.map (fun c => String.mk [c])

/-- The non-splitting tail of `TrieSearch.map`: lower-case the key when configured,
tokenize it and insert; when tokenization yields nothing the value is discarded (the
walk never left the root). -/
def mapInsert (st : TS) (key : String) (v : Item) : TS :=
  let key2 := if st.opts.ignoreCase then lowerStr key else key
  let toks := keyTokenizer st.opts key2
  if toks.isEmpty then st else { st with root := insertTokens v toks st.root }

/-- `TrieSearch.map` body (without the destroyed guard, which lives in `mapE`).  With
the whitespace split rule every split segment is whitespace-free, so the source's
recursive `map` call on a segment always takes the direct-insertion branch; the
recursion is therefore flattened to one level.  Note that `map` touches neither cache.
The `lastIndex` statefulness of the source's global split regex in `test` is invisible
in every modelled trace: each recursive call on a whitespace-free segment fails its
`test` and thereby resets the scan position to the start. -/
def mapKey (st : TS) (key : String) (v : Item) : TS :=
  if st.opts.splitOnWs && key.data.any isWs then
    let words := splitWs key
    let emptySplitLen := (words.filter (fun p => allWs p)).length
    let selfLen := (words.filter (fun p => p = key)).length
    if !(selfLen + emptySplitLen = words.length) then
      let st1 := words.foldl (fun s w => if allWs w then s else mapInsert s w v) st
      if st.opts.insertFullUnsplitKey then mapInsert st1 key v else st1
    else mapInsert st key v
  else mapInsert st key v

/-- Positions at which a character of the class occurs in the value: the successive
match indices of the global single-character-class regex. -/
def matchIndices (cls : List Char) (value : List Char) : List Nat :=
  (List.range value.length).filter (fun i =>
    match value.get? i with
    | some c => cls.contains c
    | none => false)

/-- `TrieSearch.#replaceStringAt`: splice the replacement over `replacement.length`
characters starting at the index. -/
def replaceStringAt (target : String) (i : Nat) (replacement : String) : String :=
  String.mk (target.data.take i ++ replacement.data ++ target.data.drop (i + replacement.data.length))

/-- `TrieSearch.#expandString`: the value itself, followed — for each expansion rule in
table order — by one variant per match with the matched character replaced by the
rule's substitute. -/
def expandString (opts : TSOptions) (value : String) : List String :=
  value ::
    opts.expandRegexes.foldl
      (fun acc er =>
        acc ++ (matchIndices er.1 value.data).map (fun i => replaceStringAt value i er.2))
      []

/-- `TrieSearch.#addOne`: for each key field, extract the value; skip when falsy; map
the item under every expanded variant. -/
def addOneTS (st : TS) (item : Item) : TS :=
  st.keyFields.foldl
    (fun s kf =>
      match kf item with
      | none => s
      | some val => (expandString s.opts val).foldl (fun s2 ev => mapKey s2 ev item) s)
    st

/-- `TrieSearch.add`: an empty call returns before the destroyed guard; otherwise the
guard throws on a destroyed instance; then only the phrase cache is cleared (when
non-empty), the items are added, and each subscriber receives one `add` notification
carrying the instance. -/
def addE (st : TS) (items : List Item) : Except String (TS × List TSEvent) :=
  if items.isEmpty then .ok (st, [])
  else if st.isDestroyed then .error destroyedMsg
  else
    let st1 :=
      if st.opts.cache && st.cachePhrase.size > 0 then
        { st with cachePhrase := st.cachePhrase.clear }
      else st
    let st2 := items.foldl addOneTS st1
    .ok (st2, List.replicate st2.subs { action := .add, hasInstance := true })

/-- `TrieSearch.map` with the destroyed guard. -/
def mapE (st : TS) (key : String) (v : Item) : Except String TS :=
  if st.isDestroyed then .error destroyedMsg else .ok (mapKey st key v)

/-- The `TrieSearch.root` accessor with the destroyed guard. -/
def rootE (st : TS) : Except String TrieNode :=
  if st.isDestroyed then .error destroyedMsg else .ok st.root

/-- `TrieSearch.clear`: destroyed guard, reset the trie, clear both caches, notify. -/
def clearE (st : TS) : Except String (TS × List TSEvent) :=
  if st.isDestroyed then .error destroyedMsg
  else
    .ok ({ st with
            root := TrieNode.empty
            cachePhrase := st.cachePhrase.clear
            cacheWord := st.cacheWord.clear },
         List.replicate st.subs { action := .clear, hasInstance := true })

/-- `TrieSearch.destroy`: mark destroyed, reset the trie, clear both caches, notify each
subscriber once with the `destroy` action carrying the instance itself
(`{ action: 'destroy', trieSearch: this }`), then empty the subscriber registry. -/
def TS.destroy (st : TS) : TS × List TSEvent :=
  ({ st with
      isDestroyed := true
      root := TrieNode.empty
      cachePhrase := st.cachePhrase.clear
      cacheWord := st.cacheWord.clear
      subs := 0 },
   List.replicate st.subs { action := .destroy, hasInstance := true })

/-- `TrieSearch.subscribe`: register the handler, then synchronously invoke it once with
the `subscribe` action and the instance. -/
def TS.subscribe (st : TS) : TS × TSEvent :=
  ({ st with subs := st.subs + 1 }, { action := .subscribe, hasInstance := true })

/-- `TrieSearch.#findNode`: consult the word-node cache (a cached `none` records a
previous completed-walk not-found), otherwise walk the trie by the tokenized key.  The
outcome is cached only when the walk loop ran to completion: a walk that dies before the
final token early-returns `undefined` without caching, while a walk that fails only at
the final token (or succeeds) does write the cache — including that not-found.  A cached
found node is, in the source, a live reference that observes later in-place mutations;
here it is a value snapshot, which coincides because no modelled trace interleaves a
mutation between caching a found node and reusing it. -/
def findNode (st : TS) (key : String) : Option TrieNode × TS :=
  if st.opts.cache && st.cacheWord.has key then
    ((st.cacheWord.get key).getD none, st)
  else
    match findNodeWalk (some st.root) (keyTokenizer st.opts key) with
    | none => (none, st)
    | some n =>
      (n, if st.opts.cache then { st with cacheWord := st.cacheWord.set key n } else st)

/-- `TrieSearch.#getCacheKey`: the phrase alone when the limit is JS-falsy (absent or
`0`), otherwise `phrase_limit`. -/
def getCacheKey (phrase : String) (limit : Option Nat) : String :=
  match limit with
  | some n => if n = 0 then phrase else phrase ++ "_" ++ Nat.repr n
  | none => phrase

/-- Whether the aggregation loop guard `limit !== undefined && ha.sizeFlat >= limit`
holds. -/
def limitReached (limit : Option Nat) (ha : HashArray Item) : Bool :=
  match limit with
  | none => false
  | some l => ha.sizeFlat ≥ l

mutual

/-- The `aggregate` helper of `TrieSearch.#getImpl`: pre-order collection of every
terminal value list of the subtree into the temporary collection, stopping as soon as
the optional limit is reached.  In the slicing branch — a supplied limit that the full
value list would reach or overshoot — the source adds the slice and `return`s without
visiting the node's children.  (A supplied limit of `0` never reaches the branch on the
limit: the entry guard already returned, `sizeFlat >= 0`; the source's `!limit` test is
true for `0` only in that unreachable case.) -/
def aggregate (limit : Option Nat) : TrieNode → HashArray Item → HashArray Item
  | .node val ch, ha =>
    if limitReached limit ha then ha
    else if val.isEmpty then aggregateChildren limit ch ha
    else
      match limit with
      | none => aggregateChildren limit ch (ha.add val)
      | some l =>
        if ha.sizeFlat + val.length < l then aggregateChildren limit ch (ha.add val)
        else ha.add (val.take (l - ha.sizeFlat))

/-- The child loop of `aggregate` (`for (const k in node)` skipping `value`), with the
pre-child limit guard. -/
def aggregateChildren (limit : Option Nat) :
    List (String × TrieNode) → HashArray Item → HashArray Item
  | [], ha => ha
  | (_, c) :: rest, ha =>
    if limitReached limit ha then ha
    else aggregateChildren limit rest (aggregate limit c ha)

end

/-- `TrieSearch.#getImpl`: split the phrase by the retrieval split rule, resolve each
word of sufficient length to a trie node, aggregate its subtree into a fresh temporary
collection, intersect across the words of the phrase, and store the result in the
phrase cache. -/
def getImpl (st : TS) (phrase : String) (limit : Option Nat) :
    (List Item × List String) × TS :=
  let words := if st.opts.splitOnGetWs then splitWs phrase else [phrase]
  let step := fun (acc : Option (HashArray Item) × TS) (word : String) =>
    if st.opts.minLen ≠ 0 && strLen word < st.opts.minLen then acc
    else
      let temp0 := HashArray.mk0 st.keyFields
      let res := findNode acc.2 word
      let temp :=
        match res.1 with
        | some n => aggregate limit n temp0
        | none => temp0
      let ret :=
        match acc.1 with
        | none => some temp
        | some r => some (r.intersection temp r.clone)
      (ret, res.2)
  let out := words.foldl step (none, st)
  let found :=
    match out.1 with
    | none => []
    | some r => r.list
  let st3 :=
    if st.opts.cache then
      { out.2 with cachePhrase := out.2.cachePhrase.set (getCacheKey phrase limit) (found, words) }
    else out.2
  ((found, words), st3)

/-- `TrieSearch.search` for a single string phrase without a reducer.  The supplied
limit is validated to be an integer `>= 0` — trivially satisfied by the `Option Nat`
embedding, so the validation error branch is unrepresentable; note that the method has
no destroyed guard.  On a phrase-cache hit the cached matches are used; either way the
matches are poured through a fresh `HashArray` into the result list. -/
def searchE (st : TS) (phrase : String) (limit : Option Nat) :
    Except String (List Item × TS) :=
  let icp := if st.opts.ignoreCase then lowerStr phrase else phrase
  let mw :=
    match (if st.opts.cache then st.cachePhrase.get (getCacheKey icp limit) else none) with
    | some cached => (cached, st)
    | none => getImpl st icp limit
  .ok (((HashArray.mk0 st.keyFields).add mw.1.1).list, mw.2)

/-- The matches of a search (empty on the unrepresentable error branch). -/
def searchList (st : TS) (phrase : String) : List Item :=
  match searchE st phrase none with
  | .ok r => r.1
  | .error _ => []

/-- The state after a search (unchanged on the unrepresentable error branch). -/
def searchState (st : TS) (phrase : String) : TS :=
  match searchE st phrase none with
  | .ok r => r.2
  | .error _ => st

/-- The state after an `add` (unchanged on the error branch). -/
def addState (st : TS) (items : List Item) : TS :=
  match addE st items with
  | .ok r => r.1
  | .error _ => st

end TrieDef

section UnionReducerDef

variable {α : Type}

/-- A value an own entry of the `UnionReducer.reduce` count map (`const map = {}`, a
plain JS object) can hold after a step: an integer count, or `NaN` (the result of
incrementing a non-numeric inherited value, JS `++` on a function). -/
inductive CVal where
  | num (n : Nat)
  | nan
deriving DecidableEq, Repr

/-- Nat view of an own count-map entry: `NaN` and absence are falsy, so the conditional
`map[id] = map[id] ? map[id] : 0` restarts them at `0`. -/
def cval2nat : Option CVal → Nat
  | some (.num n) => n
  | some .nan => 0
  | none => 0

@[simp]
theorem cval2nat_some_num (n : Nat) : cval2nat (some (.num n)) = n := rfl

/-- The own properties of `Object.prototype` other than the `__proto__` accessor, all
bound to truthy functions; a plain object `{}` inherits them, so `map[id]` for these ids
starts truthy instead of `undefined`. -/
def protoFnKeys : List String :=
  ["constructor", "hasOwnProperty", "isPrototypeOf", "propertyIsEnumerable",
    "toLocaleString", "toString", "valueOf",
    "__defineGetter__", "__defineSetter__", "__lookupGetter__", "__lookupSetter__"]

/-- Whether an index-field value collides with a property the plain-object count map
inherits from `Object.prototype` (the function-valued ones, or the `__proto__`
accessor). -/
def inheritedKey (k : String) : Bool := k = "__proto__" || protoFnKeys.contains k

/-- One `map[id] = map[id] ? map[id] : 0; map[id]++` step of the `UnionReducer.reduce`
loop on the plain-object count map, returning the updated own-property map and whether
`map[id] === 2` holds after the increment.  For `__proto__` the conditional reads the
truthy inherited prototype and keeps it, and the increment assigns `NaN` through the
`__proto__` setter, which ignores non-objects — no own property ever appears and the
comparison is never `2`.  For the other inherited keys the first step keeps the
inherited function, whose increment stores `NaN` (own); being falsy, `NaN` restarts the
count at `0` on the next occurrence.  An ordinary absent key starts at `0`. -/
def bumpStep (m : String → Option CVal) (k : String) : (String → Option CVal) × Bool :=
  if k = "__proto__" then (m, false)
  else
    let v1 : CVal :=
      match m k with
      | some (.num n) => if n ≠ 0 then .num (n + 1) else .num 1
      | some .nan => .num 1
      | none => if protoFnKeys.contains k then .nan else .num 1
    (fun k2 => if k2 = k then some v1 else m k2, v1 = .num 2)

/-- The tail of the `UnionReducer.reduce` loop once one of the two lists is exhausted:
the remaining indices step through the other list alone, keeping an element exactly when
`map[id] === 2` after its step. -/
def unionWalkOne (idOf : α → String) : List α → (String → Option CVal) → List α
  | [], _ => []
  | x :: xs, m =>
    let s := bumpStep m (idOf x)
    (if s.2 then [x] else []) ++ unionWalkOne idOf xs s.1

/-- The single loop of `UnionReducer.reduce`: at each index process the accumulator
element then the matches element (when the index is in range), keeping an element
exactly when `map[id] === 2` after its step. -/
def unionWalk (idOf : α → String) : List α → List α → (String → Option CVal) → List α
  | [], bs, m => unionWalkOne idOf bs m
  | a :: as, [], m => unionWalkOne idOf (a :: as) m
  | a :: as, b :: bs, m =>
    let s1 := bumpStep m (idOf a)
    let k1 := if s1.2 then [a] else []
    let s2 := bumpStep s1.1 (idOf b)
    let k2 := if s2.2 then [b] else []
    (k1 ++ k2) ++ unionWalk idOf as bs s2.1

/-- `UnionReducer.reduce` acting on the accumulator state: the first call stores the
batch verbatim; each later call runs the parallel occurrence-count walk starting from a
fresh plain-object map (no own properties). -/
def unionReduce (idOf : α → String) (acc : Option (List α)) (ms : List α) :
    Option (List α) :=
  match acc with
  | none => some ms
  | some l => some (unionWalk idOf l ms (fun _ => none))

end UnionReducerDef

section DigitsVal

/-- Numeric value of a decimal digit character. -/
def digitVal (c : Char) : Nat := c.toNat - '0'.toNat

/-- Numeric value of a decimal digit string (most significant first). -/
def digitsVal (l : List Char) : Nat := l.foldl (fun a c => a * 10 + digitVal c) 0

theorem digitVal_digitChar : ∀ d < 10, digitVal (Nat.digitChar d) = d := by decide

theorem toDigitsCore_append (f n : Nat) (acc : List Char) :
    Nat.toDigitsCore 10 f n acc = Nat.toDigitsCore 10 f n [] ++ acc := by
  induction f generalizing n acc with
  | zero => simp [Nat.toDigitsCore]
  | succ f ih =>
    simp only [Nat.toDigitsCore]
    by_cases h : n / 10 = 0
    · simp [h]
    · simp only [h, if_false]
      rw [ih (n / 10) (Nat.digitChar (n % 10) :: acc), ih (n / 10) [Nat.digitChar (n % 10)]]
      simp

theorem digitsVal_toDigitsCore (f : Nat) :
    ∀ n, n < 10 ^ f → digitsVal (Nat.toDigitsCore 10 f n []) = n := by
  induction f with
  | zero => intro n hn; interval_cases n; simp [Nat.toDigitsCore, digitsVal]
  | succ f ih =>
    intro n hn
    simp only [Nat.toDigitsCore]
    by_cases h : n / 10 = 0
    · simp only [h, if_true]
      have h10 : n % 10 < 10 := Nat.mod_lt _ (by omega)
      have := digitVal_digitChar (n % 10) h10
      have hmod := Nat.div_add_mod n 10
      simp [digitsVal, this]
      omega
    · simp only [h, if_false]
      rw [toDigitsCore_append]
      have hdiv : n / 10 < 10 ^ f := by
        rw [Nat.div_lt_iff_lt_mul (by omega : 0 < 10)]
        calc n < 10 ^ (f + 1) := hn
        _ = 10 ^ f * 10 := by ring
      have hrec := ih (n / 10) hdiv
      have h10 : n % 10 < 10 := Nat.mod_lt _ (by omega)
      have hd := digitVal_digitChar (n % 10) h10
      have hmod := Nat.div_add_mod n 10
      simp only [digitsVal, List.foldl_append, List.foldl_cons, List.foldl_nil]
      simp only [digitsVal] at hrec
      rw [hrec, hd]
      omega

/-- Evaluating the decimal digits of `Nat.repr` recovers the number. -/
theorem digitsVal_repr (n : Nat) : digitsVal (Nat.repr n).data = n := by
  have hlt : n < 10 ^ (n + 1) := by
    calc n < 2 ^ n := Nat.lt_two_pow n
    _ ≤ 10 ^ n := Nat.pow_le_pow_left (by omega) n
    _ ≤ 10 ^ (n + 1) := Nat.pow_le_pow_right (by omega) (by omega)
  have : (Nat.repr n).data = Nat.toDigitsCore 10 (n + 1) n [] := rfl
  rw [this]
  exact digitsVal_toDigitsCore (n + 1) n hlt

/-- `Nat.repr` is injective. -/
theorem natRepr_injective : Function.Injective Nat.repr := by
  intro m n h
  have := digitsVal_repr m
  rw [h, digitsVal_repr] at this
  omega

end DigitsVal

section ClaimSupport

/-- Whether an `Except`-valued call succeeded (did not throw). -/
def exceptOk {ε β : Type} : Except ε β → Bool
  | .ok _ => true
  | .error _ => false

/-- The state after a `map` call (unchanged on the error branch). -/
def mapState (st : TS) (key : String) (v : Item) : TS :=
  match mapE st key v with
  | .ok s => s
  | .error _ => st

/-- A fresh default trie over the `key` field. -/
def freshTS : TS := TS.mk0 [itemKeyField] defaultOptions

/-- A destroyed default trie (one item added, then destroyed). -/
def destroyedTS : TS := (TS.destroy (addState freshTS [⟨0, "ab"⟩])).1

/-- The four items of the concrete `min: 2` scenario. -/
def c3Items : List Item :=
  [⟨1, "the quick brown fox"⟩, ⟨2, "the quick brown"⟩, ⟨3, "the quick fox"⟩, ⟨4, "the fox"⟩]

/-- The trie of the concrete scenario: key field `key`, option `min: 2`, the four items
added. -/
def c3st : TS := addState (TS.mk0 [itemKeyField] { defaultOptions with minLen := 2 }) c3Items

/-- The accented item of the internationalization round trip. -/
def cafeItem : Item := ⟨0, "café"⟩

/-- Default trie with the accented item added. -/
def c7Default : TS := addState freshTS [cafeItem]

/-- Trie with `expandRegexes: []` and the accented item added. -/
def c7NoExpand : TS :=
  addState (TS.mk0 [itemKeyField] { defaultOptions with expandRegexes := [] }) [cafeItem]

/-- A default trie with one registered subscriber. -/
def c9st : TS := { freshTS with subs := 1 }

/-- The index-field extractor of the `UnionReducer` counterexample. -/
def ceIdOf : Nat × String → String := Prod.snd

/-- A one-item collection over the `key` field. -/
def c6A : HashArray Item := (HashArray.mk0 [itemKeyField]).add [⟨1, "a"⟩]

/-- An item never added to `c6A`. -/
def c6Missing : Item := ⟨2, "b"⟩

end ClaimSupport

section ClaimTheorems

/-- Claim C1, counterexample: on a destroyed instance, `search` does not throw — it
succeeds (returning the empty result of the cleared trie), refuting the claim that every
subsequent call to add, map, search, or the root accessor throws. -/
theorem claim_C1_counterexample :
    destroyedTS.isDestroyed = true ∧ exceptOk (searchE destroyedTS "ab" none) = true := by
  exact ⟨rfl, rfl⟩

/-- Claim C1, amended: after `destroy()`, any `add` with at least one item, any `map`,
and the `root` accessor all fail with the destroyed-instance error, while `search` does
not throw (it runs against the cleared instance). -/
theorem claim_C1_amended (st : TS) (it : Item) (its : List Item) (key : String) (v : Item)
    (phrase : String) (limit : Option Nat) (h : st.isDestroyed = true) :
    addE st (it :: its) = .error destroyedMsg ∧
    mapE st key v = .error destroyedMsg ∧
    rootE st = .error destroyedMsg ∧
    exceptOk (searchE st phrase limit) = true := by
  refine ⟨?_, ?_, ?_, ?_⟩
  · simp [addE, h]
  · simp [mapE, h]
  · simp [rootE, h]
  · rfl

/-- Witness for the amended claim C1 at a concrete destroyed instance. -/
theorem claim_C1_witness :
    destroyedTS.isDestroyed = true ∧
    (addE destroyedTS [⟨1, "x"⟩] = .error destroyedMsg ∧
     mapE destroyedTS "x" ⟨1, "x"⟩ = .error destroyedMsg ∧
     rootE destroyedTS = .error destroyedMsg ∧
     exceptOk (searchE destroyedTS "x" none) = true) :=
  ⟨rfl, claim_C1_amended destroyedTS ⟨1, "x"⟩ [] "x" ⟨1, "x"⟩ "x" none rfl⟩

/-- Claim C2 (code bug): the failing trace. Searching a fresh trie for the single-token
word `a` yields nothing and — since the walk fails only at the final token, so the loop
completes — caches the not-found word node; `add` clears only the phrase cache, so the
subsequent search for `a` still returns the stale pre-mutation empty result, although
the same `add` on a fresh trie makes `a` findable.  Likewise a direct `map` clears
neither cache, so the stale phrase-cache entry keeps that result empty as well, although
the same `map` on a fresh trie makes the key findable. -/
theorem claim_C2_bug :
    searchList freshTS "a" = [] ∧
    searchList (addState (searchState freshTS "a") [⟨0, "a"⟩]) "a" = [] ∧
    searchList (addState freshTS [⟨0, "a"⟩]) "a" = [⟨0, "a"⟩] ∧
    searchList (mapState (searchState freshTS "a") "a" ⟨0, "a"⟩) "a" = [] ∧
    searchList (mapState freshTS "a" ⟨0, "a"⟩) "a" = [⟨0, "a"⟩] := by
  exact ⟨rfl, rfl, rfl, rfl, rfl⟩

/-- Claim C3: in the `min: 2` scenario over the four items, searching `the quick`
returns exactly 3 items, then `brown fox` exactly 1, then `brown f` exactly 2 (the
second word `f` being shorter than `min` is ignored); the searches are run in sequence
on the same instance. -/
theorem claim_C3 :
    (searchList c3st "the quick").length = 3 ∧
    (searchList (searchState c3st "the quick") "brown fox").length = 1 ∧
    (searchList (searchState (searchState c3st "the quick") "brown fox") "brown f").length
      = 2 := by
  exact ⟨rfl, rfl, rfl⟩

/-- Claim C7: with the default expansion table an item whose key is `café` is returned
by searching `cafe`; with `expandRegexes: []` the same search returns the empty
result. -/
theorem claim_C7 :
    searchList c7Default "cafe" = [cafeItem] ∧ searchList c7NoExpand "cafe" = [] := by
  exact ⟨rfl, rfl⟩

/-- Claim C9, counterexample: the single destroy notification delivered to a registered
subscriber carries the trie instance itself, not the undefined sentinel the claim
asserts (the repository's own test asserts `trieSearch` equals the instance on
destroy). -/
theorem claim_C9_counterexample :
    (TS.destroy c9st).2 = [{ action := .destroy, hasInstance := true }] ∧
    ({ action := .destroy, hasInstance := true } : TSEvent) ≠
      { action := .destroy, hasInstance := false } := by
  exact ⟨rfl, by decide⟩

/-- Claim C9, amended: on `destroy()` every subscriber registered at that moment
receives exactly one final notification with the `destroy` action carrying the trie
instance itself (not an undefined sentinel), and the subscriber registry is cleared so
no subscriber receives any notification afterwards. -/
theorem claim_C9_amended (st : TS) :
    (TS.destroy st).2 = List.replicate st.subs { action := .destroy, hasInstance := true } ∧
    (TS.destroy st).1.subs = 0 := by
  exact ⟨rfl, rfl⟩

/-- Claim C10: `subscribe` synchronously delivers exactly one notification to the new
handler, with the `subscribe` action — none of the three mutation actions — carrying the
trie instance, and registers the handler. -/
theorem claim_C10 (st : TS) :
    (TS.subscribe st).2 = { action := .subscribe, hasInstance := true } ∧
    (TS.subscribe st).1.subs = st.subs + 1 ∧
    TSAction.subscribe ≠ TSAction.add ∧
    TSAction.subscribe ≠ TSAction.clear ∧
    TSAction.subscribe ≠ TSAction.destroy := by
  exact ⟨rfl, rfl, by decide, by decide, by decide⟩

/-- Claim C5, counterexample: a supplied limit of `0` is JS-falsy, so the cache key of a
`limit: 0` search equals the cache key of a no-limit search of the same phrase — two
calls with different limit values share one cached entry. -/
theorem claim_C5_counterexample :
    getCacheKey "ab" (some 0) = getCacheKey "ab" none ∧ (some 0 : Option Nat) ≠ none := by
  exact ⟨rfl, by decide⟩

/-- Canonical form of a search limit under JS truthiness: a limit of `0` is falsy and
behaves exactly like an absent limit in `#getCacheKey`. -/
def canonLimit : Option Nat → Option Nat
  | none => none
  | some n => if n = 0 then none else some n

theorem getCacheKey_some_ne (p : String) (n : Nat) (hn : n ≠ 0) :
    getCacheKey p (some n) ≠ p := by
  intro h
  simp only [getCacheKey, hn, if_false, if_neg hn] at h
  have hd := congrArg String.data h
  have hl := congrArg List.length hd
  simp [String.data_append] at hl

theorem getCacheKey_some_inj (p : String) (a b : Nat) (ha : a ≠ 0) (hb : b ≠ 0)
    (h : getCacheKey p (some a) = getCacheKey p (some b)) : a = b := by
  simp only [getCacheKey, if_neg ha, if_neg hb] at h
  have hd := congrArg String.data h
  simp only [String.data_append, List.append_assoc] at hd
  have hd2 := List.append_cancel_left hd
  have hd3 := List.append_cancel_left hd2
  have := congrArg digitsVal hd3
  rwa [digitsVal_repr, digitsVal_repr] at this

/-- Claim C5, amended: the phrase cache key is the phrase alone when the limit is absent
or `0` (JS-falsy) and `phrase_limit` when a nonzero limit is supplied; hence, for a
fixed phrase, two search calls share a cached entry exactly when their limits coincide
up to that identification — in particular distinct nonzero limits, or a nonzero limit
versus an absent one, never share, while `limit: 0` shares with the absent limit. -/
theorem claim_C5_amended (p : String) (l1 l2 : Option Nat) :
    getCacheKey p l1 = getCacheKey p l2 ↔ canonLimit l1 = canonLimit l2 := by
  rcases l1 with _ | n1 <;> rcases l2 with _ | n2
  · simp [canonLimit]
  · by_cases h2 : n2 = 0
    · simp [getCacheKey, canonLimit, h2]
    · simp only [canonLimit, if_neg h2]
      constructor
      · intro h
        exact absurd h.symm (getCacheKey_some_ne p n2 h2)
      · intro h
        exact absurd h (by simp)
  · by_cases h1 : n1 = 0
    · simp [getCacheKey, canonLimit, h1]
    · simp only [canonLimit, if_neg h1]
      constructor
      · intro h
        exact absurd h (getCacheKey_some_ne p n1 h1)
      · intro h
        exact absurd h (by simp)
  · by_cases h1 : n1 = 0 <;> by_cases h2 : n2 = 0
    · subst h1; subst h2; simp [canonLimit]
    · simp only [canonLimit, h1, if_pos rfl, if_neg h2]
      constructor
      · intro h
        subst h1
        exact absurd ((by simpa [getCacheKey] using h.symm) : getCacheKey p (some n2) = p)
          (getCacheKey_some_ne p n2 h2)
      · intro h
        exact absurd h (by simp)
    · simp only [canonLimit, h2, if_pos rfl, if_neg h1]
      constructor
      · intro h
        subst h2
        exact absurd ((by simpa [getCacheKey] using h) : getCacheKey p (some n1) = p)
          (getCacheKey_some_ne p n1 h1)
      · intro h
        exact absurd h (by simp)
    · simp only [canonLimit, if_neg h1, if_neg h2, Option.some.injEq]
      constructor
      · intro h
        exact getCacheKey_some_inj p n1 n2 h1 h2 h
      · intro h
        rw [h]

end ClaimTheorems

section UnionReducerProofs

variable {α : Type}

/-- Number of elements of the list whose index-field value is `v`. -/
def cntId (idOf : α → String) (v : String) (l : List α) : Nat :=
  (l.filter (fun x => idOf x = v)).length

theorem cntId_nil (idOf : α → String) (v : String) : cntId idOf v [] = 0 := rfl

theorem cntId_cons (idOf : α → String) (v : String) (a : α) (l : List α) :
    cntId idOf v (a :: l) = (if idOf a = v then 1 else 0) + cntId idOf v l := by
  by_cases h : idOf a = v <;> simp [cntId, h] <;> omega

theorem cntId_pos_iff (idOf : α → String) (v : String) (l : List α) :
    0 < cntId idOf v l ↔ v ∈ l.map idOf := by
  induction l with
  | nil => simp [cntId]
  | cons a l ih =>
    rw [List.map_cons, List.mem_cons, cntId_cons, ← ih]
    by_cases h : idOf a = v
    · simp [h.symm]
    · have h2 : v ≠ idOf a := fun e => h e.symm
      simp [h, h2]

theorem cntId_le_one_of_nodup (idOf : α → String) (v : String) (l : List α)
    (h : (l.map idOf).Nodup) : cntId idOf v l ≤ 1 := by
  induction l with
  | nil => simp [cntId]
  | cons a l ih =>
    simp only [List.map_cons, List.nodup_cons] at h
    by_cases hv : idOf a = v
    · have : cntId idOf v l = 0 := by
        by_contra hne
        have hpos : 0 < cntId idOf v l := Nat.pos_of_ne_zero hne
        have := (cntId_pos_iff idOf v l).mp hpos
        rw [← hv] at this
        exact h.1 this
      rw [cntId_cons, this, hv]
      simp
    · rw [cntId_cons, if_neg hv]
      simpa using ih h.2

theorem mem_map_keep (idOf : α → String) (v : String) (c : Prop) [Decidable c] (a : α) :
    v ∈ ((if c then [a] else []).map idOf) ↔ (c ∧ idOf a = v) := by
  by_cases h : c <;> simp [h, eq_comm]

theorem bumpStep_at_good (m : String → Option CVal) (k : String)
    (hk : inheritedKey k = false) :
    (bumpStep m k).1 k = some (.num (cval2nat (m k) + 1)) ∧
    ((bumpStep m k).2 = true ↔ cval2nat (m k) + 1 = 2) := by
  simp only [inheritedKey, Bool.or_eq_false_iff] at hk
  have hp : ¬(k = "__proto__") := of_decide_eq_false hk.1
  unfold bumpStep
  rw [if_neg hp]
  cases hm : m k with
  | none =>
    have hnm : k ∉ protoFnKeys := by simpa using hk.2
    simp [hm, hnm, cval2nat]
  | some c =>
    cases c with
    | num n =>
      by_cases hn : n = 0
      · simp [hm, hn, cval2nat]
      · simp [hm, hn, cval2nat]
    | nan => simp [hm, cval2nat]

theorem bumpStep_other (m : String → Option CVal) (k k2 : String) (hne : k2 ≠ k) :
    (bumpStep m k).1 k2 = m k2 := by
  unfold bumpStep
  split
  · rfl
  · dsimp only
    rw [if_neg hne]

/-- Characterization of the occurrence-count walk on a single remaining list, at an
index-field value that collides with no inherited property. -/
theorem unionWalkOne_mem (idOf : α → String) (v : String) (hv : inheritedKey v = false) :
    ∀ (xs : List α) (m : String → Option CVal),
      v ∈ (unionWalkOne idOf xs m).map idOf ↔
        (cval2nat (m v) ≤ 1 ∧ 2 ≤ cval2nat (m v) + cntId idOf v xs ∧
          1 ≤ cntId idOf v xs) := by
  intro xs
  induction xs with
  | nil => intro m; simp [unionWalkOne, cntId]
  | cons x xs ih =>
    intro m
    rw [show unionWalkOne idOf (x :: xs) m =
        (if (bumpStep m (idOf x)).2 then [x] else []) ++
          unionWalkOne idOf xs (bumpStep m (idOf x)).1 from rfl]
    rw [List.map_append, List.mem_append, ih, mem_map_keep, cntId_cons]
    by_cases hvx : idOf x = v
    · subst hvx
      obtain ⟨g1, g2⟩ := bumpStep_at_good m (idOf x) hv
      have e1 : cval2nat ((bumpStep m (idOf x)).1 (idOf x)) = cval2nat (m (idOf x)) + 1 := by
        rw [g1]
        rfl
      rw [e1, g2]
      simp <;> omega
    · have e1 : (bumpStep m (idOf x)).1 v = m v :=
        bumpStep_other m (idOf x) v (fun e => hvx e.symm)
      rw [e1]
      simp [hvx] <;> omega

/-- Characterization of the occurrence-count walk of `UnionReducer.reduce`, at an
index-field value that collides with no inherited property: the value occurs in the
output exactly when the count map admits it (at most one prior occurrence) and the
combined occurrences reach two. -/
theorem unionWalk_mem (idOf : α → String) (v : String) (hv : inheritedKey v = false) :
    ∀ (as bs : List α) (m : String → Option CVal),
      v ∈ (unionWalk idOf as bs m).map idOf ↔
        (cval2nat (m v) ≤ 1 ∧ 2 ≤ cval2nat (m v) + cntId idOf v as + cntId idOf v bs ∧
          1 ≤ cntId idOf v as + cntId idOf v bs) := by
  intro as
  induction as with
  | nil =>
    intro bs m
    have := unionWalkOne_mem idOf v hv bs m
    simpa [unionWalk, cntId_nil] using this
  | cons a as ih =>
    intro bs m
    cases bs with
    | nil =>
      have := unionWalkOne_mem idOf v hv (a :: as) m
      simpa [unionWalk, cntId_nil] using this
    | cons b bs =>
      rw [show unionWalk idOf (a :: as) (b :: bs) m =
          ((if (bumpStep m (idOf a)).2 then [a] else []) ++
            (if (bumpStep (bumpStep m (idOf a)).1 (idOf b)).2 then [b] else [])) ++
              unionWalk idOf as bs (bumpStep (bumpStep m (idOf a)).1 (idOf b)).1 from rfl]
      simp only [List.map_append, List.mem_append, ih, mem_map_keep, cntId_cons]
      by_cases hva : idOf a = v <;> by_cases hvb : idOf b = v
      · subst hva
        rw [hvb]
        obtain ⟨g1a, g1b⟩ := bumpStep_at_good m (idOf a) hv
        have e1 : cval2nat ((bumpStep m (idOf a)).1 (idOf a)) = cval2nat (m (idOf a)) + 1 := by
          rw [g1a]
          rfl
        obtain ⟨g2a, g2b⟩ := bumpStep_at_good (bumpStep m (idOf a)).1 (idOf a) hv
        have e2 : cval2nat ((bumpStep (bumpStep m (idOf a)).1 (idOf a)).1 (idOf a)) =
            cval2nat (m (idOf a)) + 2 := by
          rw [g2a, cval2nat_some_num, e1]
        rw [g1b, e2, g2b, e1]
        simp <;> omega
      · subst hva
        obtain ⟨g1a, g1b⟩ := bumpStep_at_good m (idOf a) hv
        have e1 : cval2nat ((bumpStep m (idOf a)).1 (idOf a)) = cval2nat (m (idOf a)) + 1 := by
          rw [g1a]
          rfl
        have e2 : (bumpStep (bumpStep m (idOf a)).1 (idOf b)).1 (idOf a) =
            (bumpStep m (idOf a)).1 (idOf a) :=
          bumpStep_other _ (idOf b) (idOf a) (fun e => hvb e.symm)
        rw [g1b, e2, e1]
        simp [hvb] <;> omega
      · subst hvb
        have e1 : (bumpStep m (idOf a)).1 (idOf b) = m (idOf b) :=
          bumpStep_other m (idOf a) (idOf b) (fun e => hva e.symm)
        obtain ⟨g2a, g2b⟩ := bumpStep_at_good (bumpStep m (idOf a)).1 (idOf b) hv
        have e2 : cval2nat ((bumpStep (bumpStep m (idOf a)).1 (idOf b)).1 (idOf b)) =
            cval2nat (m (idOf b)) + 1 := by
          rw [g2a, cval2nat_some_num, e1]
        rw [g2b, e1, e2]
        simp [hva] <;> omega
      · have hva2 : v ≠ idOf a := fun e => hva e.symm
        have hvb2 : v ≠ idOf b := fun e => hvb e.symm
        have e1 : (bumpStep m (idOf a)).1 v = m v := bumpStep_other m (idOf a) v hva2
        have e2 : (bumpStep (bumpStep m (idOf a)).1 (idOf b)).1 v =
            (bumpStep m (idOf a)).1 v := bumpStep_other _ (idOf b) v hvb2
        rw [e2, e1]
        simp [hva, hvb] <;> omega

/-- Everything the single-list walk keeps comes from the list. -/
theorem unionWalkOne_subset (idOf : α → String) :
    ∀ (xs : List α) (m : String → Option CVal) (x : α),
      x ∈ unionWalkOne idOf xs m → x ∈ xs := by
  intro xs
  induction xs with
  | nil => intro m x hx; simp [unionWalkOne] at hx
  | cons y xs ih =>
    intro m x hx
    rw [show unionWalkOne idOf (y :: xs) m =
        (if (bumpStep m (idOf y)).2 then [y] else []) ++
          unionWalkOne idOf xs (bumpStep m (idOf y)).1 from rfl] at hx
    rcases List.mem_append.mp hx with h | h
    · by_cases hc : (bumpStep m (idOf y)).2 = true
      · rw [if_pos hc] at h
        exact List.mem_cons.mpr (Or.inl (List.mem_singleton.mp h))
      · rw [if_neg hc] at h
        simp at h
    · exact List.mem_cons_of_mem _ (ih _ x h)

/-- Everything the parallel walk keeps comes from one of the two lists. -/
theorem unionWalk_subset (idOf : α → String) :
    ∀ (as bs : List α) (m : String → Option CVal) (x : α),
      x ∈ unionWalk idOf as bs m → x ∈ as ∨ x ∈ bs := by
  intro as
  induction as with
  | nil => intro bs m x hx; exact Or.inr (unionWalkOne_subset idOf bs m x hx)
  | cons a as ih =>
    intro bs m x hx
    cases bs with
    | nil => exact Or.inl (unionWalkOne_subset idOf (a :: as) m x hx)
    | cons b bs =>
      rw [show unionWalk idOf (a :: as) (b :: bs) m =
          ((if (bumpStep m (idOf a)).2 then [a] else []) ++
            (if (bumpStep (bumpStep m (idOf a)).1 (idOf b)).2 then [b] else [])) ++
              unionWalk idOf as bs (bumpStep (bumpStep m (idOf a)).1 (idOf b)).1
          from rfl] at hx
      rcases List.mem_append.mp hx with h | h
      · rcases List.mem_append.mp h with h1 | h1
        · by_cases hc : (bumpStep m (idOf a)).2 = true
          · rw [if_pos hc] at h1
            exact Or.inl (List.mem_cons.mpr (Or.inl (List.mem_singleton.mp h1)))
          · rw [if_neg hc] at h1
            simp at h1
        · by_cases hc : (bumpStep (bumpStep m (idOf a)).1 (idOf b)).2 = true
          · rw [if_pos hc] at h1
            exact Or.inr (List.mem_cons.mpr (Or.inl (List.mem_singleton.mp h1)))
          · rw [if_neg hc] at h1
            simp at h1
      · rcases ih bs _ x h with h2 | h2
        · exact Or.inl (List.mem_cons_of_mem _ h2)
        · exact Or.inr (List.mem_cons_of_mem _ h2)

end UnionReducerProofs

section ClaimTheoremsUnion

/-- Claim C4, counterexample: with two accumulator entries sharing one index-field value
and a disjoint matches batch, the occurrence count of that value reaches 2 inside the
accumulator alone, so the new accumulator keeps an item whose value is absent from the
matches batch — refuting the claimed equivalence with presence in both batches.  A
second divergence: an index-field value inherited from `Object.prototype`
(`constructor`), present once in each duplicate-free batch, yields an empty accumulator
because the plain-object count map starts truthy there and the increment gives `NaN`. -/
theorem claim_C4_counterexample :
    unionReduce ceIdOf (some [(0, "x"), (1, "x")]) [(2, "y")] = some [(1, "x")] ∧
    "x" ∈ ([(1, "x")] : List (Nat × String)).map ceIdOf ∧
    "x" ∉ ([(2, "y")] : List (Nat × String)).map ceIdOf ∧
    unionReduce ceIdOf (some [(0, "constructor")]) [(1, "constructor")] = some [] := by
  refine ⟨rfl, by simp [ceIdOf], by simp [ceIdOf], rfl⟩

/-- Claim C4, amended: after `reset`, the first `reduce` stores the batch verbatim; each
later `reduce` keeps an item exactly when `map[id] === 2` after its step of the parallel
walk, which coincides with presence (by index-field value) in both the accumulator and
the new batch provided the index-field values are duplicate-free within each of the two
batches and collide with no property inherited by the plain-object count map from
`Object.prototype` — with intra-batch duplicates the count reaches 2 inside one batch
alone, and on an inherited id such as `constructor` the map starts truthy, so the
increment yields `NaN` and the comparison with 2 fails. -/
theorem claim_C4_amended {α : Type} (idOf : α → String) (ms : List α) :
    unionReduce idOf none ms = some ms ∧
    (∀ (acc r : List α) (v : String),
      (acc.map idOf).Nodup → (ms.map idOf).Nodup →
      (∀ x ∈ acc, inheritedKey (idOf x) = false) →
      (∀ x ∈ ms, inheritedKey (idOf x) = false) →
      unionReduce idOf (some acc) ms = some r →
      (v ∈ r.map idOf ↔ (v ∈ acc.map idOf ∧ v ∈ ms.map idOf))) := by
  refine ⟨rfl, ?_⟩
  intro acc r v hacc hms hgacc hgms hr
  have hr2 : r = unionWalk idOf acc ms (fun _ => none) := by
    simpa [unionReduce] using hr.symm
  subst hr2
  by_cases hv : inheritedKey v = false
  · rw [unionWalk_mem idOf v hv acc ms (fun _ => none)]
    rw [show cval2nat ((fun _ : String => (none : Option CVal)) v) = 0 from rfl]
    have ha := cntId_le_one_of_nodup idOf v acc hacc
    have hb := cntId_le_one_of_nodup idOf v ms hms
    have hpa := cntId_pos_iff idOf v acc
    have hpb := cntId_pos_iff idOf v ms
    constructor
    · rintro ⟨_, h2, _⟩
      exact ⟨hpa.mp (by omega), hpb.mp (by omega)⟩
    · rintro ⟨h1, h2⟩
      have := hpa.mpr h1
      have := hpb.mpr h2
      refine ⟨by omega, by omega, by omega⟩
  · have hv2 : inheritedKey v = true := by
      revert hv
      cases inheritedKey v <;> simp
    constructor
    · intro hmem
      obtain ⟨x, hx, hxv⟩ := List.mem_map.mp hmem
      rcases unionWalk_subset idOf acc ms (fun _ => none) x hx with h | h
      · have hg := hgacc x h
        rw [hxv] at hg
        rw [hg] at hv2
        exact absurd hv2 Bool.false_ne_true
      · have hg := hgms x h
        rw [hxv] at hg
        rw [hg] at hv2
        exact absurd hv2 Bool.false_ne_true
    · rintro ⟨h1, _⟩
      obtain ⟨x, hx, hxv⟩ := List.mem_map.mp h1
      have hg := hgacc x hx
      rw [hxv] at hg
      rw [hg] at hv2
      exact absurd hv2 Bool.false_ne_true

/-- Witness for the amended claim C4 at concrete batches. -/
theorem claim_C4_witness :
    unionReduce ceIdOf none [(7, "z")] = some [(7, "z")] ∧
    (([(5, "x"), (6, "y")] : List (Nat × String)).map ceIdOf).Nodup ∧
    (([(7, "x")] : List (Nat × String)).map ceIdOf).Nodup ∧
    (∀ x ∈ ([(5, "x"), (6, "y")] : List (Nat × String)), inheritedKey (ceIdOf x) = false) ∧
    (∀ x ∈ ([(7, "x")] : List (Nat × String)), inheritedKey (ceIdOf x) = false) ∧
    ("x" ∈ (unionWalk ceIdOf [(5, "x"), (6, "y")] [(7, "x")] (fun _ => none)).map ceIdOf ↔
      ("x" ∈ ([(5, "x"), (6, "y")] : List (Nat × String)).map ceIdOf ∧
       "x" ∈ ([(7, "x")] : List (Nat × String)).map ceIdOf)) := by
  refine ⟨(claim_C4_amended ceIdOf [(7, "z")]).1, by decide, by decide, by decide, by decide, ?_⟩
  exact (claim_C4_amended ceIdOf [(7, "x")]).2 [(5, "x"), (6, "y")]
    (unionWalk ceIdOf [(5, "x"), (6, "y")] [(7, "x")] (fun _ => none)) "x"
    (by decide) (by decide) (by decide) (by decide) rfl

end ClaimTheoremsUnion

section HashArrayProofs

theorem mapGet_some_mem {α : Type} (k : String) (v : List α) :
    ∀ m : List (String × List α), mapGet m k = some v → (k, v) ∈ m := by
  intro m
  induction m with
  | nil => intro h; simp [mapGet, List.lookup] at h
  | cons p m ih =>
    intro h
    obtain ⟨k1, v1⟩ := p
    by_cases hk : k = k1
    · subst hk
      simp only [mapGet, List.lookup, beq_self_eq_true] at h
      rw [show v1 = v from Option.some.inj h]
      exact List.mem_cons_self _ _
    · have hk2 : (k == k1) = false := by
        simp only [beq_eq_false_iff_ne, ne_eq]
        exact hk
      simp only [mapGet, List.lookup, hk2] at h
      exact List.mem_cons_of_mem _ (ih h)

theorem mapGet_none_keys {α : Type} (k : String) :
    ∀ m : List (String × List α), mapGet m k = none → ∀ p ∈ m, p.1 ≠ k := by
  intro m
  induction m with
  | nil => intro _ p hp; simp at hp
  | cons q m ih =>
    intro h p hp
    obtain ⟨k1, v1⟩ := q
    by_cases hk : k = k1
    · subst hk
      simp [mapGet, List.lookup] at h
    · have hk2 : (k == k1) = false := by
        simp only [beq_eq_false_iff_ne, ne_eq]
        exact hk
      simp only [mapGet, List.lookup, hk2] at h
      rcases List.mem_cons.mp hp with hp1 | hp2
      · subst hp1
        exact fun e => hk e.symm
      · exact ih h p hp2

theorem keys_nodup_unique {α : Type} :
    ∀ m : List (String × List α), (m.map Prod.fst).Nodup →
      ∀ p q, p ∈ m → q ∈ m → p.1 = q.1 → p = q := by
  intro m
  induction m with
  | nil => intro _ p q hp; simp at hp
  | cons a m ih =>
    intro hnd p q hp hq hpq
    simp only [List.map_cons, List.nodup_cons] at hnd
    rcases List.mem_cons.mp hp with hp1 | hp2 <;> rcases List.mem_cons.mp hq with hq1 | hq2
    · rw [hp1, hq1]
    · exfalso
      apply hnd.1
      rw [hp1] at hpq
      exact hpq ▸ List.mem_map_of_mem Prod.fst hq2
    · exfalso
      apply hnd.1
      rw [hq1] at hpq
      exact hpq ▸ List.mem_map_of_mem Prod.fst hp2
    · exact ih hnd.2 p q hp2 hq2 hpq

theorem mapSet_self {α : Type} (k : String) (v : List α)
    (m : List (String × List α)) (hnd : (m.map Prod.fst).Nodup)
    (hg : mapGet m k = some v) : mapSet m k v = m := by
  have hkv : (k, v) ∈ m := mapGet_some_mem k v m hg
  unfold mapSet
  conv_rhs => rw [← List.map_id m]
  apply List.map_congr_left
  intro p hp
  by_cases hpk : p.1 = k
  · have : p = (k, v) := keys_nodup_unique m hnd p (k, v) hp hkv hpk
    rw [if_pos hpk, this]
    rfl
  · rw [if_neg hpk]
    rfl

theorem mapDel_not_mem {α : Type} (k : String) :
    ∀ m : List (String × List α), (∀ p ∈ m, p.1 ≠ k) → mapDel m k = m := by
  intro m hm
  unfold mapDel
  apply List.filter_eq_self.mpr
  intro p hp
  simp only [Bool.not_eq_true']
  exact decide_eq_false (hm p hp)

theorem eraseP_no_hit {α : Type} [DecidableEq α] (item : α) :
    ∀ l : List α, item ∉ l → l.eraseP (fun x => x = item) = l := by
  intro l hl
  apply List.eraseP_of_forall_not
  intro a ha
  simp only [decide_eq_true_eq]
  intro he
  exact hl (he ▸ ha)

theorem removeKeyStep_id {α : Type} [DecidableEq α] (ha : HashArray α) (item : α)
    (hnd : (ha.map.map Prod.fst).Nodup)
    (hne : ∀ p ∈ ha.map, p.2 ≠ [])
    (hnb : ∀ p ∈ ha.map, item ∉ p.2)
    (kf : α → Option String) : removeKeyStep item ha.map kf = ha.map := by
  unfold removeKeyStep
  split
  · rfl
  · rename_i k _
    split
    · rfl
    · rename_i items hg
      have hmem := mapGet_some_mem k items ha.map hg
      have hni : item ∉ items := hnb _ hmem
      have hitems : items.eraseP (fun x => x = item) = items := eraseP_no_hit item items hni
      simp only [hitems]
      have hemp : items.isEmpty = false := by
        cases items with
        | nil => exact absurd rfl (hne _ hmem)
        | cons a l => rfl
      simp only [hemp, Bool.false_eq_true, if_false]
      exact mapSet_self k items ha.map hnd hg

/-- Removing an item that occupies no bucket of a well-formed map leaves
`#removeItemFromMap` without effect. -/
theorem removeItemFromMap_id {α : Type} [DecidableEq α] (ha : HashArray α) (item : α)
    (hnd : (ha.map.map Prod.fst).Nodup)
    (hne : ∀ p ∈ ha.map, p.2 ≠ [])
    (hnb : ∀ p ∈ ha.map, item ∉ p.2) :
    ha.removeItemFromMap item = ha := by
  unfold HashArray.removeItemFromMap
  have hstep : ∀ kfs : List (α → Option String),
      kfs.foldl (removeKeyStep item) ha.map = ha.map := by
    intro kfs
    induction kfs with
    | nil => rfl
    | cons kf kfs ih =>
      rw [List.foldl_cons, removeKeyStep_id ha item hnd hne hnb kf]
      exact ih
  rw [hstep]

/-- Claim C6, counterexample: removing a never-added item from a one-item collection
silently leaves the collection unchanged — `remove` does not signal an error. -/
theorem claim_C6_counterexample :
    c6A.remove [c6Missing] = c6A ∧ c6Missing ∉ c6A.list := by
  constructor
  · rfl
  · intro h
    simp [c6A, c6Missing, HashArray.mk0, HashArray.add, HashArray.addOne, addOneGo,
      itemKeyField, mapGet] at h

/-- Claim C6, amended: on the current `HashArray`, `remove` of an item that was never
added (absent from the ordered list and from every bucket of the well-formed map) is a
silent no-op rather than an error, and `removeByKey` of an unknown key is likewise a
no-op. -/
theorem claim_C6_amended {α : Type} [DecidableEq α] (ha : HashArray α) (item : α) (k : String)
    (hnd : (ha.map.map Prod.fst).Nodup)
    (hne : ∀ p ∈ ha.map, p.2 ≠ [])
    (hnb : ∀ p ∈ ha.map, item ∉ p.2)
    (hnl : item ∉ ha.list) :
    ha.remove [item] = ha ∧ (ha.has k = false → ha.removeByKey [k] = ha) := by
  constructor
  · show List.foldl _ ha [item] = ha
    rw [List.foldl_cons, List.foldl_nil]
    dsimp only
    rw [removeItemFromMap_id ha item hnd hne hnb]
    rw [eraseP_no_hit item ha.list hnl]
  · intro hk
    show List.foldl _ ha [k] = ha
    rw [List.foldl_cons, List.foldl_nil]
    have hg : mapGet ha.map k = none := by
      unfold HashArray.has at hk
      exact Option.not_isSome_iff_eq_none.mp (by simp [hk])
    dsimp only
    rw [hg]
    dsimp only
    rw [mapDel_not_mem k ha.map (mapGet_none_keys k ha.map hg)]

/-- Witness for the amended claim C6 at a concrete collection, missing item, and
unknown key. -/
theorem claim_C6_witness :
    ((c6A.map.map Prod.fst).Nodup ∧ (∀ p ∈ c6A.map, p.2 ≠ []) ∧
     (∀ p ∈ c6A.map, c6Missing ∉ p.2) ∧ c6Missing ∉ c6A.list) ∧
    (c6A.remove [c6Missing] = c6A ∧ (c6A.has "zz" = false → c6A.removeByKey ["zz"] = c6A)) := by
  refine ⟨⟨by decide, by decide, by decide, by decide⟩, ?_⟩
  exact claim_C6_amended c6A c6Missing "zz" (by decide) (by decide) (by decide) (by decide)

end HashArrayProofs

section IntersectionProofs

theorem addOne_list_mem {α : Type} [DecidableEq α] (ha : HashArray α) (item x : α)
    (hx : x ∈ (ha.addOne item).list) : x ∈ ha.list ∨ x = item := by
  unfold HashArray.addOne at hx
  rcases hgo : addOneGo ha.ignoreDuplicates item ha.keyFields ha.map true with ⟨m, added, aborted⟩
  rw [hgo] at hx
  cases aborted with
  | true => simp at hx; exact Or.inl hx
  | false =>
    dsimp only at hx
    by_cases hc2 : (added || !(decide (item ∈ ha.list))) = true
    · rw [if_pos hc2] at hx
      rcases List.mem_append.mp hx with h | h
      · exact Or.inl h
      · exact Or.inr (List.mem_singleton.mp h)
    · rw [if_neg hc2] at hx
      exact Or.inl hx

/-- Invariant preservation along the `intersection` fold: any property implied by the
inclusion test holds of everything in the output list. -/
theorem foldl_addOne_inv {α : Type} [DecidableEq α] (P : α → Prop) (cond : α → Bool)
    (hcond : ∀ i, cond i = true → P i) :
    ∀ (l : List α) (o : HashArray α), (∀ x ∈ o.list, P x) →
      ∀ x ∈ (l.foldl (fun o i => if cond i then o.addOne i else o) o).list, P x := by
  intro l
  induction l with
  | nil => intro o ho; exact ho
  | cons i l ih =>
    intro o ho
    rw [List.foldl_cons]
    apply ih
    intro y hy
    by_cases hc : cond i = true
    · rw [if_pos hc] at hy
      rcases addOne_list_mem o i y hy with h | h
      · exact ho y h
      · exact h ▸ hcond i hc
    · rw [if_neg hc] at hy
      exact ho y hy

/-- Claim C8: every item in the collection returned by `A.intersection(B)` (with its
default empty-clone output) collides with both `A` and `B`; in particular no item
colliding with only one of them can appear.  The hypothesis states the bucket-coherence
invariant of every reachable `HashArray`: an item sits in a bucket only under one of its
own key values. -/
theorem claim_C8 {α : Type} [DecidableEq α] (A B : HashArray α)
    (hwf : ∀ p ∈ B.map, ∀ x ∈ p.2, ∃ kf ∈ B.keyFields, kf x = some p.1) :
    ∀ x ∈ (A.intersection B A.clone).list, A.collides x = true ∧ B.collides x = true := by
  unfold HashArray.intersection
  apply foldl_addOne_inv (fun x => A.collides x = true ∧ B.collides x = true)
  · intro i hc
    rw [List.any_eq_true] at hc
    obtain ⟨kf, hkf, hcond⟩ := hc
    cases hki : kf i with
    | none => rw [hki] at hcond; simp at hcond
    | some k =>
      rw [hki] at hcond
      dsimp only at hcond
      rw [Bool.and_eq_true] at hcond
      obtain ⟨hA, hB⟩ := hcond
      cases hga : mapGet A.map k with
      | none => rw [hga] at hA; simp at hA
      | some itemsA =>
        rw [hga] at hA
        have hiA : i ∈ itemsA := by simpa using hA
        cases hgb : mapGet B.map k with
        | none => rw [hgb] at hB; simp at hB
        | some itemsB =>
          rw [hgb] at hB
          have hiB : i ∈ itemsB := by simpa using hB
          constructor
          · unfold HashArray.collides
            rw [List.any_eq_true]
            refine ⟨kf, hkf, ?_⟩
            rw [hki]
            show A.has k = true
            unfold HashArray.has
            rw [hga]
            rfl
          · obtain ⟨kf2, hkf2, hk2⟩ :=
              hwf (k, itemsB) (mapGet_some_mem k itemsB B.map hgb) i hiB
            unfold HashArray.collides
            rw [List.any_eq_true]
            refine ⟨kf2, hkf2, ?_⟩
            rw [hk2]
            show B.has k = true
            unfold HashArray.has
            rw [hgb]
            rfl
  · intro x hx
    simp [HashArray.clone] at hx

/-- The two concrete collections of the claim C8 witness. -/
def c8A : HashArray Item := (HashArray.mk0 [itemKeyField]).add [⟨1, "a"⟩, ⟨2, "b"⟩]

/-- Second concrete collection of the claim C8 witness, overlapping `c8A` in one item. -/
def c8B : HashArray Item := (HashArray.mk0 [itemKeyField]).add [⟨1, "a"⟩, ⟨3, "c"⟩]

/-- Witness for claim C8 at two concrete collections. -/
theorem claim_C8_witness :
    (∀ p ∈ c8B.map, ∀ x ∈ p.2, ∃ kf ∈ c8B.keyFields, kf x = some p.1) ∧
    (⟨1, "a"⟩ : Item) ∈ (c8A.intersection c8B c8A.clone).list ∧
    (c8A.collides ⟨1, "a"⟩ = true ∧ c8B.collides ⟨1, "a"⟩ = true) := by
  refine ⟨?_, ?_, ?_⟩
  · decide
  · decide
  · exact claim_C8 c8A c8B (by decide) ⟨1, "a"⟩ (by decide)

end IntersectionProofs

end TrieSpec
